import Mathlib

/-!
Verification of the CAST O'GEAR puzzle solver (src/ogear.py).

The Python program performs a breadth-first search over gear states.
A state is a triple ((side, axis), tooth, polarity); the static dictionary
`TRANSITIONS` maps a position (side, axis) to the set of legal moves out of
it, each move carrying a tooth increment and a polarity multiplier.

This file shallowly embeds the program:
  * the Python dict becomes an association list `TRANSITIONS_LIST` looked up
    by `dictLookup` (Python dict keys are unique; lookup is by equality);
  * Python sets of transitions become lists in source order (set iteration
    order is implementation defined; none of the proved properties depend
    on it);
  * Python ints become `Int`; Python `%` on a positive modulus agrees with
    `Int.emod`, Lean's `%` on `Int`;
  * the unbounded `while` loop becomes the fuel-indexed `solveLoop`;
    `solveLoop_terminates` proves the fuel is never exhausted, so the
    fallback branch of `solve` is dead code and the embedding computes
    exactly what the Python loop computes;
  * `raise ValueError(msg)` becomes `Except.error (SolveError.valueError msg)`.
-/

inductive Axis where
  | X
  | Y
  | Z
deriving DecidableEq, Repr

open Axis

/-- A position of the gear: the cube side (1 to 6) and the gear axis. -/
abbrev Position := Nat × Axis

/-- A transition `((next_side, next_axis), tooth_incr, polarity_mult)`. -/
abbrev Transition := Position × Int × Int

/-- A full state of the gear: `((side_id, axis), tooth, polarity)`. -/
structure GearState where
  pos : Position
  tooth : Int
  polarity : Int
deriving DecidableEq, Repr

/-- The `TRANSITIONS` dictionary of `ogear.py`, entries in source order. -/
def TRANSITIONS_LIST : List (Position × List Transition) := [
  ((1, X), [((2, X), -1, 1), ((4, X), 1, 1), ((1, Y), 0, -1)]),
  ((1, Y), [((3, Y), 1, 1), ((1, X), 0, -1)]),
  ((2, X), [((1, X), 1, 1), ((2, Z), 0, -1)]),
  ((2, Z), [((5, Z), -1, 1), ((2, X), 0, -1)]),
  ((3, Y), [((1, Y), -1, 1), ((6, Y), 1, 1), ((3, Z), 0, 1)]),
  ((3, Z), [((4, Z), 1, 1), ((3, Y), 0, 1)]),
  ((4, Z), [((3, Z), -1, 1), ((5, Z), 1, 1), ((4, X), 0, 1)]),
  ((4, X), [((1, X), -1, 1), ((4, Z), 0, 1)]),
  ((5, Z), [((4, Z), -1, 1), ((2, Z), 1, 1), ((5, Y), 0, -1)]),
  ((5, Y), [((6, Y), -1, 1), ((5, Z), 0, -1)]),
  ((6, Y), [((5, Y), 1, 1), ((3, Y), -1, 1), ((6, X), 0, 1)]),
  ((6, X), [((6, Y), 0, 1)])
]

/-- Lookup in an association list by key equality (Python dict lookup). -/
def dictLookup : List (Position × List Transition) → Position → Option (List Transition)
  | [], _ => none
  | (k, v) :: rest, p => if p = k then some v else dictLookup rest p

/-- `TRANSITIONS[p]` as a partial function: `none` models a `KeyError` /
`p not in TRANSITIONS`. -/
def TRANSITIONS (p : Position) : Option (List Transition) :=
  dictLookup TRANSITIONS_LIST p

/-- Lines 84-87 of `ogear.py`: the successor state of `s` under transition
`t`, with `next_polarity = polarity * polarity_mult` and
`next_tooth = (tooth + tooth_incr * polarity) % 5`. -/
def applyTransition (s : GearState) (t : Transition) : GearState :=
  { pos := t.1,
    tooth := (s.tooth + t.2.1 * s.polarity) % 5,
    polarity := s.polarity * t.2.2 }

/-- A queue entry `(state, steps, path)` of the BFS deque. -/
abbrev QueueEntry := GearState × Nat × List Transition

/-- The Python program raises `ValueError(msg)` for both of its failures:
one exception type, carrying only a message string. -/
inductive SolveError where
  | valueError (msg : String)
deriving DecidableEq, Repr

def axisStr : Axis → String
  | X => "X"
  | Y => "Y"
  | Z => "Z"

/-- Python's rendering of the position tuple inside the f-string, e.g.
`(7, 'X')`. -/
def posStr (p : Position) : String :=
  "(" ++ toString p.1 ++ ", '" ++ axisStr p.2 ++ "')"

/-- The message of line 82: `f'{side_id} is an invalid initial position'`. -/
def invalidPosMsg (p : Position) : String :=
  posStr p ++ " is an invalid initial position"

/-- The message of line 97. -/
def noSolutionMsg : String :=
  "No solution found, check the provided initial and target positions"

/-- The body of the `for transition in TRANSITIONS[side_id]` loop
(lines 83-95), iterating over the remaining transitions and threading the
`seen_states` set and the tail of the deque.  Returns `some next_path` as the
first component when the early `return next_path` of line 94 fires. -/
def processTransitions (target s : GearState) (steps : Nat) (path : List Transition) :
    List Transition → List GearState → List QueueEntry →
    Option (List Transition) × List GearState × List QueueEntry
  | [], seen, queue => (none, seen, queue)
  | t :: ts, seen, queue =>
    let ns := applyTransition s t
    if ns ∈ seen then
      processTransitions target s steps path ts seen queue
    else
      let npath := path ++ [t]
      if ns = target then (some npath, ns :: seen, queue)
      else processTransitions target s steps path ts (ns :: seen) (queue ++ [(ns, steps + 1, npath)])

/-- The `while len(to_process) > 0` loop (lines 78-97), fuel-indexed.
`none` means the fuel ran out, which `solveLoop_terminates` below proves
impossible from the initial configuration with `SOLVE_FUEL`. -/
def solveLoop (target : GearState) : Nat → List QueueEntry → List GearState →
    Option (Except SolveError (List Transition))
  | _, [], _ => some (Except.error (SolveError.valueError noSolutionMsg))
  | 0, _ :: _, _ => none
  | fuel + 1, (s, steps, path) :: rest, seen =>
    match TRANSITIONS s.pos with
    | none => some (Except.error (SolveError.valueError (invalidPosMsg s.pos)))
    | some ts =>
      match processTransitions target s steps path ts seen rest with
      | (some found, _, _) => some (Except.ok found)
      | (none, seen2, queue2) => solveLoop target fuel queue2 seen2

/-- Fuel bound for the BFS loop; any value above 122 works (the loop runs at
most 122 iterations, see `solveLoop_terminates`). -/
def SOLVE_FUEL : Nat := 1000

/-- `solve(origin, target)` of `ogear.py` (lines 74-97).  The fallback arm is
unreachable (`solveLoop_terminates`). -/
def solve (origin target : GearState) : Except SolveError (List Transition) :=
  match solveLoop target SOLVE_FUEL [(origin, 0, [])] [origin] with
  | some r => r
  | none => Except.error (SolveError.valueError noSolutionMsg)

/-- Replay a list of transitions from a state: each transition must be an
entry of the transition table for the current position, and the state is
updated by `applyTransition`.  `some t` means the sequence is a legal
transition sequence ending in `t`. -/
def replay (s : GearState) : List Transition → Option GearState
  | [] => some s
  | t :: rest =>
    match TRANSITIONS s.pos with
    | none => none
    | some ts => if t ∈ ts then replay (applyTransition s t) rest else none

deriving instance DecidableEq for Except

/-- Boolean reflection of `solve` returning a path (used to evaluate one
concrete run of the solver inside the kernel). -/
def okCheck (o t : GearState) : Bool :=
  match solve o t with
  | Except.ok _ => true
  | Except.error _ => false

/-! ### Basic lemmas about `replay` and the transition table -/

lemma replay_append (p q : List Transition) :
    ∀ s, replay s (p ++ q) = (replay s p).bind fun u => replay u q := by
  induction p with
  | nil => intro s; rfl
  | cons t ts ih =>
    intro s
    cases h : TRANSITIONS s.pos with
    | none => simp [replay, h]
    | some trs =>
      by_cases ht : t ∈ trs
      · simpa [replay, h, ht] using ih (applyTransition s t)
      · simp [replay, h, ht]

lemma replay_snoc_of {o s : GearState} {p : List Transition} {ts : List Transition}
    {t : Transition} (hp : replay o p = some s) (hts : TRANSITIONS s.pos = some ts)
    (ht : t ∈ ts) : replay o (p ++ [t]) = some (applyTransition s t) := by
  rw [replay_append, hp]
  simp [replay, hts, ht]

lemma replay_snoc_inv {o u : GearState} {p : List Transition} {t : Transition}
    (h : replay o (p ++ [t]) = some u) :
    ∃ w ts, replay o p = some w ∧ TRANSITIONS w.pos = some ts ∧ t ∈ ts ∧
      u = applyTransition w t := by
  rw [replay_append] at h
  cases hp : replay o p with
  | none => rw [hp] at h; simp at h
  | some w =>
    rw [hp] at h
    simp only [Option.some_bind] at h
    cases hts : TRANSITIONS w.pos with
    | none => rw [replay, hts] at h; simp at h
    | some ws =>
      rw [replay, hts] at h
      by_cases ht : t ∈ ws
      · refine ⟨w, ws, rfl, hts, ht, ?_⟩
        simp [ht, replay] at h
        exact h.symm
      · simp [ht] at h

lemma dictLookup_mem : ∀ (l : List (Position × List Transition)) (p : Position)
    (ts : List Transition), dictLookup l p = some ts → (p, ts) ∈ l := by
  intro l
  induction l with
  | nil => intro p ts h; simp [dictLookup] at h
  | cons kv rest ih =>
    intro p ts h
    obtain ⟨k, v⟩ := kv
    rw [dictLookup] at h
    by_cases hk : p = k
    · simp [hk] at h
      simp [hk, h]
    · simp [hk] at h
      exact List.mem_cons_of_mem _ (ih p ts h)

lemma TRANSITIONS_some_mem {p : Position} {ts : List Transition}
    (h : TRANSITIONS p = some ts) : (p, ts) ∈ TRANSITIONS_LIST :=
  dictLookup_mem _ _ _ h

/-- Keys of the transition table, in source order. -/
def keyPositions : List Position := TRANSITIONS_LIST.map Prod.fst

lemma table_mult_pm : ∀ pr ∈ TRANSITIONS_LIST, ∀ t ∈ pr.2, t.2.2 = 1 ∨ t.2.2 = -1 := by
  decide

lemma table_target_key : ∀ pr ∈ TRANSITIONS_LIST, ∀ t ∈ pr.2, t.1 ∈ keyPositions := by
  decide

lemma key_isSome : ∀ p ∈ keyPositions, (TRANSITIONS p).isSome := by decide

/-! ### The finite universe of states reachable by the search -/

/-- Possible values of the tooth index after a `% 5`. -/
def toothVals : List Int := [0, 1, 2, 3, 4]

/-- Every state the BFS can ever insert in `seen_states` when started from
`o`: the origin itself, plus all states whose position is a table key, whose
tooth is in `[0, 4]` and whose polarity is `o.polarity` up to sign. -/
def univList (o : GearState) : List GearState :=
  o :: (keyPositions.flatMap fun p => toothVals.flatMap fun tt =>
    [⟨p, tt, o.polarity⟩, ⟨p, tt, -o.polarity⟩])

lemma univList_length (o : GearState) : (univList o).length = 121 := by
  simp [univList, keyPositions, toothVals, TRANSITIONS_LIST]

lemma mem_univList_polarity {o s : GearState} (h : s ∈ univList o) :
    s.polarity = o.polarity ∨ s.polarity = -o.polarity := by
  simp only [univList, List.mem_cons, List.mem_flatMap, List.mem_cons,
    List.mem_singleton] at h
  rcases h with rfl | ⟨p, _, tt, _, h | h | h⟩ <;> simp_all

lemma succ_mem_univList {o s : GearState} {ts : List Transition} {t : Transition}
    (hs : s ∈ univList o) (hts : TRANSITIONS s.pos = some ts) (ht : t ∈ ts) :
    applyTransition s t ∈ univList o := by
  have hmem := TRANSITIONS_some_mem hts
  have hkey : t.1 ∈ keyPositions := table_target_key _ hmem _ ht
  have hmult : t.2.2 = 1 ∨ t.2.2 = -1 := table_mult_pm _ hmem _ ht
  have hpol : s.polarity = o.polarity ∨ s.polarity = -o.polarity :=
    mem_univList_polarity hs
  have htooth₀ : 0 ≤ (s.tooth + t.2.1 * s.polarity) % 5 :=
    Int.emod_nonneg _ (by norm_num)
  have htooth₁ : (s.tooth + t.2.1 * s.polarity) % 5 < 5 :=
    Int.emod_lt_of_pos _ (by norm_num)
  have hpol' : (applyTransition s t).polarity = o.polarity ∨
      (applyTransition s t).polarity = -o.polarity := by
    simp only [applyTransition]
    rcases hmult with h1 | h1 <;> rcases hpol with h2 | h2 <;>
      simp [h1, h2, mul_comm]
  have htt : (s.tooth + t.2.1 * s.polarity) % 5 ∈ toothVals := by
    have : (s.tooth + t.2.1 * s.polarity) % 5 = 0 ∨
        (s.tooth + t.2.1 * s.polarity) % 5 = 1 ∨
        (s.tooth + t.2.1 * s.polarity) % 5 = 2 ∨
        (s.tooth + t.2.1 * s.polarity) % 5 = 3 ∨
        (s.tooth + t.2.1 * s.polarity) % 5 = 4 := by omega
    simp only [toothVals, List.mem_cons, List.mem_singleton]
    tauto
  simp only [univList, List.mem_cons, List.mem_flatMap]
  refine Or.inr ⟨t.1, hkey, (s.tooth + t.2.1 * s.polarity) % 5, htt, ?_⟩
  rcases hpol' with h | h
  · exact Or.inl (by simp [applyTransition] at h ⊢; simp [h])
  · refine Or.inr (by simp [applyTransition] at h ⊢; simp [h])

/-! ### Specification of `processTransitions` -/

lemma processTransitions_found_spec {target s : GearState} {steps : Nat}
    {path : List Transition} :
    ∀ (ts : List Transition) (seen : List GearState) (queue : List QueueEntry)
      (found : List Transition) (seen2 : List GearState) (queue2 : List QueueEntry),
      processTransitions target s steps path ts seen queue = (some found, seen2, queue2) →
      ∃ t ∈ ts, found = path ++ [t] ∧ applyTransition s t = target ∧
        applyTransition s t ∉ seen := by
  intro ts
  induction ts with
  | nil => intro seen queue found seen2 queue2 h; simp [processTransitions] at h
  | cons t ts ih =>
    intro seen queue found seen2 queue2 h
    rw [processTransitions] at h
    by_cases hseen : applyTransition s t ∈ seen
    · simp only [hseen, if_pos] at h
      obtain ⟨t', ht', hfound, htgt, hns⟩ := ih _ _ _ _ _ h
      exact ⟨t', List.mem_cons_of_mem _ ht', hfound, htgt, hns⟩
    · simp only [hseen, if_neg, not_false_iff] at h
      by_cases htgt : applyTransition s t = target
      · simp only [htgt, if_pos] at h
        obtain ⟨h1, _, _⟩ := Prod.mk.injEq .. ▸ h
        refine ⟨t, List.mem_cons_self .., ?_, htgt, hseen⟩
        exact (Option.some.injEq .. ▸ congrArg Prod.fst h).symm
      · simp only [htgt, if_neg, not_false_iff] at h
        obtain ⟨t', ht', hfound, htgt', hns⟩ := ih _ _ _ _ _ h
        refine ⟨t', List.mem_cons_of_mem _ ht', hfound, htgt', fun hc => hns ?_⟩
        exact List.mem_cons_of_mem _ hc

lemma processTransitions_none_spec {target s : GearState} {steps : Nat}
    {path : List Transition} :
    ∀ (ts : List Transition) (seen : List GearState) (queue : List QueueEntry)
      (seen2 : List GearState) (queue2 : List QueueEntry),
      processTransitions target s steps path ts seen queue = (none, seen2, queue2) →
      ∃ newTs : List Transition,
        (∀ t ∈ newTs, t ∈ ts ∧ applyTransition s t ∉ seen ∧ applyTransition s t ≠ target) ∧
        queue2 = queue ++ newTs.map (fun t => (applyTransition s t, steps + 1, path ++ [t])) ∧
        seen2 = (newTs.map (applyTransition s)).reverse ++ seen ∧
        (seen.Nodup → seen2.Nodup) ∧
        (∀ t ∈ ts, applyTransition s t ∈ seen2) := by
  intro ts
  induction ts with
  | nil =>
    intro seen queue seen2 queue2 h
    rw [processTransitions] at h
    simp only [Prod.mk.injEq, true_and] at h
    obtain ⟨hs, hq⟩ := h
    subst hs; subst hq
    exact ⟨[], by simp, by simp, by simp, fun hd => hd, by simp⟩
  | cons t ts ih =>
    intro seen queue seen2 queue2 h
    rw [processTransitions] at h
    by_cases hseen : applyTransition s t ∈ seen
    · simp only [hseen, if_pos] at h
      obtain ⟨newTs, hprops, hq, hs, hnd, hcov⟩ := ih _ _ _ _ h
      refine ⟨newTs, ?_, hq, hs, hnd, ?_⟩
      · intro t' ht'
        obtain ⟨h1, h2, h3⟩ := hprops t' ht'
        exact ⟨List.mem_cons_of_mem _ h1, h2, h3⟩
      · intro t' ht'
        rcases List.mem_cons.mp ht' with rfl | ht''
        · rw [hs]; exact List.mem_append_right _ hseen
        · exact hcov t' ht''
    · simp only [hseen, if_neg, not_false_iff] at h
      by_cases htgt : applyTransition s t = target
      · simp only [htgt, if_pos] at h
        exact absurd (congrArg Prod.fst h) (by simp)
      · simp only [htgt, if_neg, not_false_iff] at h
        obtain ⟨newTs, hprops, hq, hs, hnd, hcov⟩ := ih _ _ _ _ h
        refine ⟨t :: newTs, ?_, ?_, ?_, ?_, ?_⟩
        · intro t' ht'
          rcases List.mem_cons.mp ht' with rfl | ht''
          · exact ⟨List.mem_cons_self .., hseen, htgt⟩
          · obtain ⟨h1, h2, h3⟩ := hprops t' ht''
            exact ⟨List.mem_cons_of_mem _ h1, fun hc => h2 (List.mem_cons_of_mem _ hc), h3⟩
        · rw [hq]; simp
        · rw [hs]; simp
        · intro hd
          exact hnd (List.nodup_cons.mpr ⟨hseen, hd⟩)
        · intro t' ht'
          rcases List.mem_cons.mp ht' with rfl | ht''
          · rw [hs]
            refine List.mem_append_right _ (List.mem_cons_self ..)
          · exact hcov t' ht''


/-! ### Termination: the fuel is never exhausted -/

lemma solveLoop_some (o target : GearState) :
    ∀ (fuel : Nat) (q : List QueueEntry) (seen : List GearState),
      (∀ e ∈ q, e.1 ∈ seen) →
      (∀ x ∈ seen, x ∈ univList o) →
      seen.Nodup →
      q.length + 122 ≤ fuel + seen.length →
      ∃ r, solveLoop target fuel q seen = some r := by
  intro fuel
  induction fuel with
  | zero =>
    intro q seen hqs hsu hnd hlen
    cases q with
    | nil => exact ⟨_, rfl⟩
    | cons e rest =>
      exfalso
      have hle : seen.length ≤ 121 := by
        have h1 := (List.Nodup.subperm hnd fun x hx => hsu x hx).length_le
        simpa [univList_length] using h1
      simp only [List.length_cons] at hlen
      omega
  | succ fuel ih =>
    intro q seen hqs hsu hnd hlen
    cases q with
    | nil => exact ⟨_, rfl⟩
    | cons hd rest =>
      obtain ⟨s, steps, p⟩ := hd
      rw [solveLoop]
      split
      · exact ⟨_, rfl⟩
      · rename_i ts hts
        split
        · exact ⟨_, rfl⟩
        · rename_i seen2 queue2 hproc
          obtain ⟨newTs, hprops, hq2, hs2, hnd2, hcov⟩ :=
            processTransitions_none_spec _ _ _ _ _ hproc
          have hsmem : s ∈ seen := hqs _ (List.mem_cons_self ..)
          have hsuniv : s ∈ univList o := hsu _ hsmem
          have hseensub : ∀ x ∈ seen, x ∈ seen2 := by
            intro x hx; rw [hs2]; exact List.mem_append_right _ hx
          refine ih queue2 seen2 ?_ ?_ (hnd2 hnd) ?_
          · intro e he
            rw [hq2] at he
            rcases List.mem_append.mp he with he | he
            · exact hseensub _ (hqs _ (List.mem_cons_of_mem _ he))
            · obtain ⟨t, ht, rfl⟩ := List.mem_map.mp he
              exact hcov t (hprops t ht).1
          · intro x hx
            rw [hs2] at hx
            rcases List.mem_append.mp hx with hx | hx
            · rw [List.mem_reverse] at hx
              obtain ⟨t, ht, rfl⟩ := List.mem_map.mp hx
              exact succ_mem_univList hsuniv hts (hprops t ht).1
            · exact hsu _ hx
          · have hql : queue2.length = rest.length + newTs.length := by
              rw [hq2]; simp
            have hsl : seen2.length = newTs.length + seen.length := by
              rw [hs2]; simp
            simp only [List.length_cons] at hlen
            omega

lemma solveLoop_terminates (o target : GearState) :
    ∃ r, solveLoop target SOLVE_FUEL [(o, 0, [])] [o] = some r := by
  refine solveLoop_some o target SOLVE_FUEL _ _ ?_ ?_ ?_ ?_
  · intro e he
    rcases List.mem_singleton.mp he with rfl
    exact List.mem_singleton.mpr rfl
  · intro x hx
    rcases List.mem_singleton.mp hx with rfl
    exact List.mem_cons_self ..
  · exact List.nodup_singleton _
  · norm_num [SOLVE_FUEL]

lemma solve_eq_of_loop {o target : GearState} {r : Except SolveError (List Transition)}
    (h : solveLoop target SOLVE_FUEL [(o, 0, [])] [o] = some r) : solve o target = r := by
  rw [solve, h]

/-! ### Classification of the possible outcomes -/

lemma solveLoop_error_classify {target : GearState} :
    ∀ (fuel : Nat) (q : List QueueEntry) (seen : List GearState) (e : SolveError),
      solveLoop target fuel q seen = some (Except.error e) →
      e = SolveError.valueError noSolutionMsg ∨
        ∃ p, e = SolveError.valueError (invalidPosMsg p) := by
  intro fuel
  induction fuel with
  | zero =>
    intro q seen e h
    cases q with
    | nil =>
      rw [solveLoop] at h
      simp only [Option.some.injEq, Except.error.injEq] at h
      exact Or.inl h.symm
    | cons hd rest => rw [solveLoop] at h; simp at h
  | succ fuel ih =>
    intro q seen e h
    cases q with
    | nil =>
      rw [solveLoop] at h
      simp only [Option.some.injEq, Except.error.injEq] at h
      exact Or.inl h.symm
    | cons hd rest =>
      obtain ⟨s, steps, p⟩ := hd
      rw [solveLoop] at h
      split at h
      · rename_i hts
        simp only [Option.some.injEq, Except.error.injEq] at h
        exact Or.inr ⟨s.pos, h.symm⟩
      · rename_i ts hts
        split at h
        · rename_i found heq
          simp at h
        · rename_i seen2 queue2 hproc
          exact ih queue2 seen2 e h

lemma solveLoop_valid_classify {target : GearState} :
    ∀ (fuel : Nat) (q : List QueueEntry) (seen : List GearState)
      (r : Except SolveError (List Transition)),
      (∀ e ∈ q, (TRANSITIONS e.1.pos).isSome) →
      solveLoop target fuel q seen = some r →
      (∃ res, r = Except.ok res) ∨ r = Except.error (SolveError.valueError noSolutionMsg) := by
  intro fuel
  induction fuel with
  | zero =>
    intro q seen r hq h
    cases q with
    | nil =>
      rw [solveLoop] at h
      simp only [Option.some.injEq] at h
      exact Or.inr h.symm
    | cons hd rest => rw [solveLoop] at h; simp at h
  | succ fuel ih =>
    intro q seen r hq h
    cases q with
    | nil =>
      rw [solveLoop] at h
      simp only [Option.some.injEq] at h
      exact Or.inr h.symm
    | cons hd rest =>
      obtain ⟨s, steps, p⟩ := hd
      have hvalid : (TRANSITIONS s.pos).isSome := hq _ (List.mem_cons_self ..)
      rw [solveLoop] at h
      split at h
      · rename_i hts
        rw [hts] at hvalid
        simp at hvalid
      · rename_i ts hts
        split at h
        · rename_i found fst snd heq
          simp only [Option.some.injEq] at h
          exact Or.inl ⟨found, h.symm⟩
        · rename_i seen2 queue2 hproc
          refine ih queue2 seen2 r ?_ h
          obtain ⟨newTs, hprops, hq2, hs2, hnd2, hcov⟩ :=
            processTransitions_none_spec _ _ _ _ _ hproc
          intro e he
          rw [hq2] at he
          rcases List.mem_append.mp he with he | he
          · exact hq _ (List.mem_cons_of_mem _ he)
          · obtain ⟨t, ht, rfl⟩ := List.mem_map.mp he
            have hmem := TRANSITIONS_some_mem hts
            have hkey : t.1 ∈ keyPositions := table_target_key _ hmem _ (hprops t ht).1
            simpa [applyTransition] using key_isSome _ hkey

/-! ### The BFS invariant: validity and minimality of returned paths -/

/-- One legal move of the search graph: `v` is a successor of `u` through a
transition of the table. -/
def Edge (u v : GearState) : Prop :=
  ∃ ts, TRANSITIONS u.pos = some ts ∧ ∃ t ∈ ts, v = applyTransition u t

/-- Length of the path recorded in a queue entry. -/
def entryLen (e : QueueEntry) : Nat := e.2.2.length

/-- The invariant maintained by the BFS loop of `solve`:
* every queued path replays from the origin to the entry's state;
* recorded path lengths are non-decreasing along the queue and span at most
  two consecutive values;
* every queued path is a shortest path to its state;
* any state not yet seen is at distance at least (head length + 1);
* every seen state has either been fully expanded or still sits in the
  queue. -/
structure BfsInv (o : GearState) (seen : List GearState) (q : List QueueEntry) : Prop where
  replayOK : ∀ e ∈ q, replay o e.2.2 = some e.1
  sorted : q.Pairwise fun a b => entryLen a ≤ entryLen b
  span : ∀ e ∈ q, ∀ hd rest2, q = hd :: rest2 → entryLen e ≤ entryLen hd + 1
  entryMin : ∀ e ∈ q, ∀ r, replay o r = some e.1 → entryLen e ≤ r.length
  unseenFar : ∀ u, u ∉ seen → ∀ r, replay o r = some u →
      ∀ hd rest2, q = hd :: rest2 → entryLen hd + 1 ≤ r.length
  expandedOrQueued : ∀ u ∈ seen, (∀ v, Edge u v → v ∈ seen) ∨ ∃ e ∈ q, e.1 = u

lemma pairwise_of_total {α : Type} {R : α → α → Prop} (h : ∀ a b, R a b) :
    ∀ l : List α, l.Pairwise R := by
  intro l
  induction l with
  | nil => exact List.Pairwise.nil
  | cons a l ih => exact List.Pairwise.cons (fun b _ => h a b) ih

lemma bfsInv_init (o : GearState) : BfsInv o [o] [(o, 0, [])] := by
  constructor
  · intro e he
    rcases List.mem_singleton.mp he with rfl
    rfl
  · exact List.pairwise_singleton _ _
  · intro e he hd rest2 hq
    rcases List.mem_singleton.mp he with rfl
    injection hq with h1 h2
    subst h1
    simp [entryLen]
  · intro e he r hr
    rcases List.mem_singleton.mp he with rfl
    simp [entryLen]
  · intro u hu r hr hd rest2 hq
    injection hq with h1 h2
    subst h1
    show entryLen (o, 0, ([] : List Transition)) + 1 ≤ r.length
    cases r with
    | nil =>
      exfalso
      rw [replay] at hr
      simp only [Option.some.injEq] at hr
      exact hu (hr ▸ List.mem_singleton.mpr rfl)
    | cons t rest3 => simp [entryLen]
  · intro u hu
    rcases List.mem_singleton.mp hu with rfl
    exact Or.inr ⟨(u, 0, []), List.mem_singleton.mpr rfl, rfl⟩

lemma bfsInv_step {o target s : GearState} {steps : Nat} {p : List Transition}
    {rest : List QueueEntry} {seen : List GearState} {ts : List Transition}
    {seen2 : List GearState} {queue2 : List QueueEntry}
    (inv : BfsInv o seen ((s, steps, p) :: rest))
    (hts : TRANSITIONS s.pos = some ts)
    (hproc : processTransitions target s steps p ts seen rest = (none, seen2, queue2)) :
    BfsInv o seen2 queue2 ∧ ∀ x ∈ seen, x ∈ seen2 := by
  obtain ⟨newTs, hprops, hq2, hs2, hnd2, hcov⟩ :=
    processTransitions_none_spec _ _ _ _ _ hproc
  have hreplay_head : replay o p = some s := inv.replayOK _ (List.mem_cons_self ..)
  have hseensub : ∀ x ∈ seen, x ∈ seen2 := by
    intro x hx; rw [hs2]; exact List.mem_append_right _ hx
  have hmem2 : ∀ x ∈ seen2, (∃ t ∈ newTs, x = applyTransition s t) ∨ x ∈ seen := by
    intro x hx
    rw [hs2] at hx
    rcases List.mem_append.mp hx with hx | hx
    · rw [List.mem_reverse] at hx
      obtain ⟨t, ht, rfl⟩ := List.mem_map.mp hx
      exact Or.inl ⟨t, ht, rfl⟩
    · exact Or.inr hx
  have hlenNew : ∀ e ∈ newTs.map (fun t => ((applyTransition s t, steps + 1, p ++ [t]) : QueueEntry)),
      entryLen e = p.length + 1 := by
    intro e he
    obtain ⟨t, ht, rfl⟩ := List.mem_map.mp he
    simp [entryLen]
  obtain ⟨hhead, hrest⟩ := List.pairwise_cons.mp inv.sorted
  have hspan : ∀ e ∈ (s, steps, p) :: rest, entryLen e ≤ p.length + 1 := by
    intro e he
    exact inv.span e he (s, steps, p) rest rfl
  refine ⟨⟨?_, ?_, ?_, ?_, ?_, ?_⟩, hseensub⟩
  · -- replayOK
    intro e he
    rw [hq2] at he
    rcases List.mem_append.mp he with he | he
    · exact inv.replayOK _ (List.mem_cons_of_mem _ he)
    · obtain ⟨t, ht, rfl⟩ := List.mem_map.mp he
      exact replay_snoc_of hreplay_head hts (hprops t ht).1
  · -- sorted
    rw [hq2, List.pairwise_append]
    refine ⟨hrest, ?_, ?_⟩
    · rw [List.pairwise_map]
      refine pairwise_of_total (fun a b => ?_) newTs
      simp [entryLen]
    · intro a ha b hb
      have h1 : entryLen a ≤ p.length + 1 := hspan a (List.mem_cons_of_mem _ ha)
      have h2 : entryLen b = p.length + 1 := hlenNew b hb
      omega
  · -- span
    intro e he hd rest2 hq
    have hhd_mem : hd ∈ queue2 := by rw [hq]; exact List.mem_cons_self ..
    have hhd_ge : p.length ≤ entryLen hd := by
      cases rest with
      | nil =>
        rw [hq2, List.nil_append] at hhd_mem
        rw [hlenNew hd hhd_mem]
        omega
      | cons r0 rest' =>
        rw [hq2, List.cons_append] at hq
        injection hq with h1 h2
        rw [← h1]
        exact hhead r0 (List.mem_cons_self ..)
    have he' : entryLen e ≤ p.length + 1 := by
      rw [hq2] at he
      rcases List.mem_append.mp he with he | he
      · exact hspan e (List.mem_cons_of_mem _ he)
      · rw [hlenNew e he]
    omega
  · -- entryMin
    intro e he r hr
    rw [hq2] at he
    rcases List.mem_append.mp he with he | he
    · exact inv.entryMin e (List.mem_cons_of_mem _ he) r hr
    · obtain ⟨t, ht, rfl⟩ := List.mem_map.mp he
      have hns : applyTransition s t ∉ seen := (hprops t ht).2.1
      have hfar := inv.unseenFar _ hns r hr (s, steps, p) rest rfl
      simp only [entryLen, List.length_append, List.length_singleton] at hfar ⊢
      simpa using hfar
  · -- unseenFar
    intro u hu r hr hd rest2 hq
    have hu_seen : u ∉ seen := fun hx => hu (hseensub _ hx)
    have hbase : p.length + 1 ≤ r.length :=
      inv.unseenFar u hu_seen r hr (s, steps, p) rest rfl
    by_cases hcase : entryLen hd + 1 ≤ r.length
    · exact hcase
    exfalso
    have hhd_mem : hd ∈ queue2 := by rw [hq]; exact List.mem_cons_self ..
    have hhd_le : entryLen hd ≤ p.length + 1 := by
      rw [hq2] at hhd_mem
      rcases List.mem_append.mp hhd_mem with hh | hh
      · exact hspan hd (List.mem_cons_of_mem _ hh)
      · rw [hlenNew hd hh]
    have hrlen : r.length = p.length + 1 := by omega
    rcases List.eq_nil_or_concat r with rfl | ⟨r', tl, hr_eq⟩
    · simp at hrlen
    · subst hr_eq
      rw [List.concat_eq_append] at hr hrlen
      obtain ⟨w, ws, hw, hws, htl, hu_eq⟩ := replay_snoc_inv hr
      subst hu_eq
      have hr'len : r'.length = p.length := by
        rw [List.length_append, List.length_singleton] at hrlen
        omega
      by_cases hw_seen : w ∈ seen
      · rcases inv.expandedOrQueued w hw_seen with hexp | ⟨e, he, he1⟩
        · exact hu (hseensub _ (hexp _ ⟨ws, hws, tl, htl, rfl⟩))
        · rcases List.mem_cons.mp he with he_head | he_rest
          · have hsw : s = w := by rw [he_head] at he1; exact he1
            subst hsw
            have hwts : ws = ts := by
              rw [hws] at hts
              exact (Option.some.injEq .. ▸ hts).symm ▸ rfl
            rw [hwts] at htl
            exact hu (hcov tl htl)
          · have hmin : entryLen e ≤ r'.length := by
              refine inv.entryMin e (List.mem_cons_of_mem _ he_rest) r' ?_
              rw [he1]; exact hw
            cases rest with
            | nil => exact absurd he_rest (List.not_mem_nil _)
            | cons r0 rest' =>
              have hhd_eq : r0 = hd := by
                rw [hq2, List.cons_append] at hq
                injection hq with h1 h2
              have h_ge : entryLen hd ≤ entryLen e := by
                rcases List.mem_cons.mp he_rest with rfl | he' 
                · rw [← hhd_eq]
                · have h3 := (List.pairwise_cons.mp hrest).1 e he' 
                  rw [← hhd_eq]
                  exact h3
              omega
      · have h4 := inv.unseenFar w hw_seen r' hw (s, steps, p) rest rfl
        simp only [entryLen] at h4
        omega
  · -- expandedOrQueued
    intro u hu2
    rcases hmem2 u hu2 with ⟨t, ht, rfl⟩ | hu_old
    · refine Or.inr ⟨(applyTransition s t, steps + 1, p ++ [t]), ?_, rfl⟩
      rw [hq2]
      exact List.mem_append_right _ (List.mem_map.mpr ⟨t, ht, rfl⟩)
    · rcases inv.expandedOrQueued u hu_old with hexp | ⟨e, he, he1⟩
      · exact Or.inl fun v hv => hseensub _ (hexp v hv)
      · rcases List.mem_cons.mp he with he_head | he_rest
        · have hsu : s = u := by rw [he_head] at he1; exact he1
          subst hsu
          refine Or.inl fun v hv => ?_
          obtain ⟨ws, hws, t, htv, rfl⟩ := hv
          have hwts : ws = ts := by
            rw [hws] at hts
            exact Option.some.injEq .. ▸ hts
          rw [hwts] at htv
          exact hcov t htv
        · exact Or.inr ⟨e, by rw [hq2]; exact List.mem_append_left _ he_rest, he1⟩

lemma solveLoop_ok_spec {o target : GearState} :
    ∀ (fuel : Nat) (q : List QueueEntry) (seen : List GearState)
      (res : List Transition),
      BfsInv o seen q →
      solveLoop target fuel q seen = some (Except.ok res) →
      replay o res = some target ∧
      (∀ r, replay o r = some target → res.length ≤ r.length) ∧
      res ≠ [] ∧ target ∉ seen := by
  intro fuel
  induction fuel with
  | zero =>
    intro q seen res inv h
    cases q with
    | nil => rw [solveLoop] at h; simp at h
    | cons hd rest => rw [solveLoop] at h; simp at h
  | succ fuel ih =>
    intro q seen res inv h
    cases q with
    | nil => rw [solveLoop] at h; simp at h
    | cons hd rest =>
      obtain ⟨s, steps, p⟩ := hd
      rw [solveLoop] at h
      split at h
      · simp at h
      · rename_i ts hts
        split at h
        · rename_i found fst snd hproc
          simp only [Option.some.injEq, Except.ok.injEq] at h
          subst h
          obtain ⟨t, ht, hfound, htgt, hns⟩ :=
            processTransitions_found_spec _ _ _ _ _ _ hproc
          subst hfound
          have htseen : target ∉ seen := htgt ▸ hns
          refine ⟨?_, ?_, ?_, htseen⟩
          · rw [replay_snoc_of (inv.replayOK _ (List.mem_cons_self ..)) hts ht, htgt]
          · intro r hr
            have hfar := inv.unseenFar target htseen r hr (s, steps, p) rest rfl
            simp only [entryLen] at hfar
            simp only [List.length_append, List.length_singleton]
            omega
          · simp
        · rename_i seen2 queue2 hproc
          obtain ⟨inv2, hsub⟩ := bfsInv_step inv hts hproc
          obtain ⟨h1, h2, h3, h4⟩ := ih queue2 seen2 res inv2 h
          exact ⟨h1, h2, h3, fun hx => h4 (hsub _ hx)⟩

/-- Any path returned by `solve` replays from the origin exactly to the
target, is a shortest such path, is non-empty, and its target was not the
origin. -/
lemma solve_ok_spec {o target : GearState} {res : List Transition}
    (h : solve o target = Except.ok res) :
    replay o res = some target ∧
    (∀ r, replay o r = some target → res.length ≤ r.length) ∧
    res ≠ [] ∧ target ≠ o := by
  obtain ⟨r, hr⟩ := solveLoop_terminates o target
  have hs := solve_eq_of_loop hr
  rw [hs] at h
  subst h
  obtain ⟨h1, h2, h3, h4⟩ := solveLoop_ok_spec SOLVE_FUEL _ _ res (bfsInv_init o) hr
  exact ⟨h1, h2, h3, fun he => h4 (he ▸ List.mem_singleton.mpr rfl)⟩

/-- Calling `solve` with `origin = target` (on a position with table entry)
exhausts the search space and raises the no-solution `ValueError`; it never
returns the empty path. -/
lemma solve_self_noSolution {o : GearState} (h : (TRANSITIONS o.pos).isSome) :
    solve o o = Except.error (SolveError.valueError noSolutionMsg) := by
  obtain ⟨r, hr⟩ := solveLoop_terminates o o
  have hvq : ∀ e ∈ [((o, 0, []) : QueueEntry)], (TRANSITIONS e.1.pos).isSome := by
    intro e he
    rcases List.mem_singleton.mp he with rfl
    exact h
  rcases solveLoop_valid_classify SOLVE_FUEL _ _ r hvq hr with ⟨res, hok⟩ | herr
  · exfalso
    have hsolve := solve_eq_of_loop hr
    rw [hok] at hsolve
    obtain ⟨-, -, -, hne⟩ := solve_ok_spec hsolve
    exact hne rfl
  · rw [herr] at hr
    exact solve_eq_of_loop hr

/-- An origin whose position has no table entry makes the very first loop
iteration raise the invalid-position `ValueError`. -/
lemma solve_invalid {o target : GearState} (h : TRANSITIONS o.pos = none) :
    solve o target = Except.error (SolveError.valueError (invalidPosMsg o.pos)) := by
  have hf : SOLVE_FUEL = 999 + 1 := rfl
  have hloop : solveLoop target SOLVE_FUEL [(o, 0, [])] [o] =
      some (Except.error (SolveError.valueError (invalidPosMsg o.pos))) := by
    rw [hf, solveLoop, h]
  exact solve_eq_of_loop hloop

/-- Every error raised by `solve` is a `ValueError` carrying either the
no-solution message or an invalid-position message. -/
lemma solve_error_classify {o target : GearState} {e : SolveError}
    (h : solve o target = Except.error e) :
    e = SolveError.valueError noSolutionMsg ∨
      ∃ p, e = SolveError.valueError (invalidPosMsg p) := by
  obtain ⟨r, hr⟩ := solveLoop_terminates o target
  have hs := solve_eq_of_loop hr
  rw [hs] at h
  subst h
  exact solveLoop_error_classify SOLVE_FUEL _ _ e hr

lemma okCheck_spec {o t : GearState} (h : okCheck o t = true) :
    ∃ p, solve o t = Except.ok p := by
  cases hs : solve o t with
  | ok p => exact ⟨p, rfl⟩
  | error e =>
    rw [okCheck, hs] at h
    simp at h

/-! ### The claims -/

/-- Claim C1: for every origin and target for which `solve` returns a path,
the returned path is a minimal-length sequence of legal transitions (table
entries) connecting origin to target: it replays from origin to target and
no strictly shorter legal transition sequence does. -/
theorem claim_C1 (o target : GearState) (res : List Transition)
    (h : solve o target = Except.ok res) :
    replay o res = some target ∧
    ∀ r, replay o r = some target → res.length ≤ r.length :=
  ⟨(solve_ok_spec h).1, (solve_ok_spec h).2.1⟩

/-- Witness for C1 at a concrete one-step instance. -/
theorem claim_C1_witness :
    solve ⟨(6, X), 0, 1⟩ ⟨(6, Y), 0, 1⟩ = Except.ok [((6, Y), 0, 1)] ∧
    (replay ⟨(6, X), 0, 1⟩ [((6, Y), 0, 1)] = some ⟨(6, Y), 0, 1⟩ ∧
      ∀ r, replay ⟨(6, X), 0, 1⟩ r = some ⟨(6, Y), 0, 1⟩ →
        ([((6, Y), 0, 1)] : List Transition).length ≤ r.length) :=
  ⟨by decide, claim_C1 _ _ _ (by decide)⟩

/-- Claim C2: replaying the returned transitions in order from the origin —
each transition being an entry of the table for the current position, the
state updated by the tooth/polarity rule — ends exactly in the target
state. -/
theorem claim_C2 (o target : GearState) (res : List Transition)
    (h : solve o target = Except.ok res) :
    replay o res = some target :=
  (solve_ok_spec h).1

/-- Witness for C2 at a concrete one-step instance. -/
theorem claim_C2_witness :
    solve ⟨(6, X), 0, 1⟩ ⟨(6, Y), 0, 1⟩ = Except.ok [((6, Y), 0, 1)] ∧
    replay ⟨(6, X), 0, 1⟩ [((6, Y), 0, 1)] = some ⟨(6, Y), 0, 1⟩ :=
  ⟨by decide, claim_C2 _ _ _ (by decide)⟩

/-- Counterexample to claim C3: at state ((6, X), 0, 1), whose position is a
key of the table, `solve s s` raises the no-solution ValueError instead of
returning an empty path (the origin is pre-seeded in `seen_states`, and only
successor states are ever compared with the target). -/
theorem claim_C3_counterexample :
    (TRANSITIONS ((6, X) : Position)).isSome = true ∧
    solve ⟨(6, X), 0, 1⟩ ⟨(6, X), 0, 1⟩ =
      Except.error (SolveError.valueError noSolutionMsg) :=
  ⟨by decide, solve_self_noSolution (by decide)⟩

/-- Claim C3 as amended: for every state whose position is a key of the
table, calling `solve` with origin = target raises the no-solution
ValueError (never returns the empty path). -/
theorem claim_C3_amended (s : GearState) (h : (TRANSITIONS s.pos).isSome) :
    solve s s = Except.error (SolveError.valueError noSolutionMsg) :=
  solve_self_noSolution h

/-- Witness for the amended C3 at a concrete state. -/
theorem claim_C3_witness :
    (TRANSITIONS ((1, X) : Position)).isSome = true ∧
    solve ⟨(1, X), 0, 1⟩ ⟨(1, X), 0, 1⟩ =
      Except.error (SolveError.valueError noSolutionMsg) :=
  ⟨by decide, claim_C3_amended ⟨(1, X), 0, 1⟩ (by decide)⟩

/-- Claim C4: the successor computed by `solve` (lines 85-87, embedded as
`applyTransition`) from a state with tooth in [0, 4] and polarity in
{+1, -1} has polarity `polarity * polarity_mult`, tooth
`(tooth + tooth_incr * polarity) mod 5`, and the tooth is normalized into
[0, 4], never negative. -/
theorem claim_C4 (s : GearState) (t : Transition)
    (h1 : 0 ≤ s.tooth ∧ s.tooth ≤ 4) (h2 : s.polarity = 1 ∨ s.polarity = -1) :
    applyTransition s t =
      ⟨t.1, (s.tooth + t.2.1 * s.polarity) % 5, s.polarity * t.2.2⟩ ∧
    0 ≤ (applyTransition s t).tooth ∧ (applyTransition s t).tooth ≤ 4 := by
  refine ⟨rfl, Int.emod_nonneg _ (by norm_num), ?_⟩
  have h3 := Int.emod_lt_of_pos (s.tooth + t.2.1 * s.polarity)
    (show (0 : Int) < 5 by norm_num)
  show (s.tooth + t.2.1 * s.polarity) % 5 ≤ 4
  omega

/-- Witness for C4 at a concrete state and transition. -/
theorem claim_C4_witness :
    (0 ≤ (⟨(1, X), 2, -1⟩ : GearState).tooth ∧
      (⟨(1, X), 2, -1⟩ : GearState).tooth ≤ 4) ∧
    ((⟨(1, X), 2, -1⟩ : GearState).polarity = 1 ∨
      (⟨(1, X), 2, -1⟩ : GearState).polarity = -1) ∧
    (applyTransition ⟨(1, X), 2, -1⟩ ((2, X), -1, 1) =
        ⟨(((2, X), -1, 1) : Transition).1,
          ((⟨(1, X), 2, -1⟩ : GearState).tooth +
            (((2, X), -1, 1) : Transition).2.1 * (⟨(1, X), 2, -1⟩ : GearState).polarity) % 5,
          (⟨(1, X), 2, -1⟩ : GearState).polarity * (((2, X), -1, 1) : Transition).2.2⟩ ∧
      0 ≤ (applyTransition ⟨(1, X), 2, -1⟩ ((2, X), -1, 1)).tooth ∧
      (applyTransition ⟨(1, X), 2, -1⟩ ((2, X), -1, 1)).tooth ≤ 4) :=
  ⟨by decide, by decide, claim_C4 _ _ (by decide) (by decide)⟩

/-- Counterexample to claim C5: the two failures are NOT distinguishable as
distinct error types — the source raises the single exception type
`ValueError` (embedded as the one-constructor `SolveError.valueError`) in
both cases, and only the message strings differ. -/
theorem claim_C5_counterexample :
    solve ⟨(7, X), 0, 1⟩ ⟨(6, X), 4, -1⟩ =
      Except.error (SolveError.valueError (invalidPosMsg (7, X))) ∧
    solve ⟨(6, Y), 0, 1⟩ ⟨(6, Y), 0, 1⟩ =
      Except.error (SolveError.valueError noSolutionMsg) ∧
    invalidPosMsg (7, X) ≠ noSolutionMsg :=
  ⟨solve_invalid (by decide), solve_self_noSolution (by decide), by decide⟩

/-- Claim C5 as amended: `solve` signals exactly two kinds of failure —
invalid position and no solution — but both are raised as the same error
type (`ValueError`), distinguishable only by their message strings. -/
theorem claim_C5_amended (o target : GearState) (e : SolveError)
    (h : solve o target = Except.error e) :
    ∃ msg, e = SolveError.valueError msg ∧
      (msg = noSolutionMsg ∨ ∃ p, msg = invalidPosMsg p) := by
  rcases solve_error_classify h with rfl | ⟨p, rfl⟩
  · exact ⟨noSolutionMsg, rfl, Or.inl rfl⟩
  · exact ⟨invalidPosMsg p, rfl, Or.inr ⟨p, rfl⟩⟩

/-- Witness for the amended C5 at a concrete failing call. -/
theorem claim_C5_witness :
    solve ⟨(7, X), 0, 1⟩ ⟨(1, X), 0, 1⟩ =
      Except.error (SolveError.valueError (invalidPosMsg (7, X))) ∧
    ∃ msg, SolveError.valueError (invalidPosMsg (7, X)) = SolveError.valueError msg ∧
      (msg = noSolutionMsg ∨ ∃ p, msg = invalidPosMsg p) :=
  ⟨by decide, claim_C5_amended ⟨(7, X), 0, 1⟩ ⟨(1, X), 0, 1⟩
    (SolveError.valueError (invalidPosMsg (7, X))) (by decide)⟩

/-- Claim C6: whenever the loop dequeues a state whose position has no entry
in the table, it fails immediately with the invalid-position ValueError
naming that position (first conjunct); in particular a call to `solve` whose
origin position is not a table key — e.g. any side-7 position — fails this
way and returns no path (second conjunct). -/
theorem claim_C6 (target : GearState) (fuel : Nat) (s : GearState) (steps : Nat)
    (p : List Transition) (rest : List QueueEntry) (seen : List GearState)
    (h : TRANSITIONS s.pos = none) :
    solveLoop target (fuel + 1) ((s, steps, p) :: rest) seen =
      some (Except.error (SolveError.valueError (invalidPosMsg s.pos))) ∧
    ∀ o : GearState, TRANSITIONS o.pos = none →
      solve o target = Except.error (SolveError.valueError (invalidPosMsg o.pos)) := by
  constructor
  · rw [solveLoop, h]
  · intro o ho
    exact solve_invalid ho

/-- Witness for C6 at a concrete side-7 state. -/
theorem claim_C6_witness :
    TRANSITIONS ((⟨(7, X), 0, 1⟩ : GearState)).pos = none ∧
    (solveLoop ⟨(1, X), 0, 1⟩ (0 + 1) [(⟨(7, X), 0, 1⟩, 0, [])] [] =
        some (Except.error (SolveError.valueError
          (invalidPosMsg (⟨(7, X), 0, 1⟩ : GearState).pos))) ∧
      ∀ o : GearState, TRANSITIONS o.pos = none →
        solve o ⟨(1, X), 0, 1⟩ =
          Except.error (SolveError.valueError (invalidPosMsg o.pos))) :=
  ⟨by decide, claim_C6 _ 0 _ 0 [] [] [] (by decide)⟩

/-- Claim C7: `solve` terminates on every input pair: the fuel-indexed
embedding of the `while` loop always yields a result (the visited set is
bounded by the 121-element state universe, so the loop runs at most 122
iterations, far below `SOLVE_FUEL`), and `solve` returns exactly that
result. -/
theorem claim_C7 (o target : GearState) :
    ∃ r, solveLoop target SOLVE_FUEL [(o, 0, [])] [o] = some r ∧
      solve o target = r := by
  obtain ⟨r, hr⟩ := solveLoop_terminates o target
  exact ⟨r, hr, solve_eq_of_loop hr⟩

/-- Claim C8: the transition table has exactly 12 entries with pairwise
distinct keys, each entry has between 1 and 3 outgoing transitions, and
every transition target is itself a key of the table — so no lookup during
expansion from a valid origin can hit an undefined position. -/
theorem claim_C8 :
    TRANSITIONS_LIST.length = 12 ∧
    (TRANSITIONS_LIST.map Prod.fst).Nodup ∧
    (∀ pr ∈ TRANSITIONS_LIST, 1 ≤ pr.2.length ∧ pr.2.length ≤ 3) ∧
    ∀ p ts, TRANSITIONS p = some ts → ∀ t ∈ ts, (TRANSITIONS t.1).isSome := by
  refine ⟨by decide, by decide, by decide, ?_⟩
  intro p ts h t ht
  have hmem := TRANSITIONS_some_mem h
  exact key_isSome _ (table_target_key _ hmem _ ht)

/-- Witness for C8: the closure property applied at a concrete table entry. -/
theorem claim_C8_witness :
    TRANSITIONS ((1, X) : Position) =
      some [((2, X), -1, 1), ((4, X), 1, 1), ((1, Y), 0, -1)] ∧
    (TRANSITIONS ((2, X) : Position)).isSome :=
  ⟨by decide, claim_C8.2.2.2 (1, X) [((2, X), -1, 1), ((4, X), 1, 1), ((1, Y), 0, -1)]
    (by decide) ((2, X), -1, 1) (by decide)⟩

/-- Claim C9: from origin ((1, X), 0, +1) to target ((6, X), 4, -1) `solve`
returns (does not raise) a non-empty path whose replay from the origin ends
exactly in the target. -/
theorem claim_C9 :
    ∃ p, solve ⟨(1, X), 0, 1⟩ ⟨(6, X), 4, -1⟩ = Except.ok p ∧ p ≠ [] ∧
      replay ⟨(1, X), 0, 1⟩ p = some ⟨(6, X), 4, -1⟩ := by
  obtain ⟨p, hp⟩ := okCheck_spec
    (show okCheck ⟨(1, X), 0, 1⟩ ⟨(6, X), 4, -1⟩ = true by decide)
  obtain ⟨h1, -, h3, -⟩ := solve_ok_spec hp
  exact ⟨p, hp, h3, h1⟩

/-- Claim C10: a path returned by `solve` always contains at least one
transition: the target test is applied only to successor states, so a
zero-length path is never returned. -/
theorem claim_C10 (o target : GearState) (p : List Transition)
    (h : solve o target = Except.ok p) : p ≠ [] :=
  (solve_ok_spec h).2.2.1

/-- Witness for C10 at a concrete one-step instance. -/
theorem claim_C10_witness :
    solve ⟨(6, X), 0, 1⟩ ⟨(6, Y), 0, 1⟩ = Except.ok [((6, Y), 0, 1)] ∧
    ([((6, Y), 0, 1)] : List Transition) ≠ [] :=
  ⟨by decide, claim_C10 ⟨(6, X), 0, 1⟩ ⟨(6, Y), 0, 1⟩ [((6, Y), 0, 1)] (by decide)⟩
